import Mathlib

/-!
# Verification of the GTM research-pipeline core (gtm_openfunnel)

Shallow embedding, in Lean 4, of the orchestration core of the repository:

* the loop-continuation predicate `should_continue_research`
  (src/graph/gtm_graph.py);
* the feedback loop with its per-pass iteration-counter increment
  (src/agents/multi_source_search_agent.py, line 293);
* the aggregation stage's dedup-and-cap loops
  (src/agents/company_aggregator_agent.py, `extract_companies_async`
  and `extract_news_companies`);
* the evidence-map merge and query routing of the search stage
  (src/agents/multi_source_search_agent.py, `run_serper_searches`);
* the circuit breaker (src/utils/circuit_breaker.py);
* the quality-evaluation stage's error recovery
  (src/agents/quality_evaluator_agent.py);
* the in-memory TTL cache (src/utils/cache.py).

Python floats are modelled as rationals (`ℚ`), Python ints as `Int` (or
`Nat` where the source value is a count that is never negative), Python
dicts as insertion-ordered association lists keyed by `String`, and
Python sets of strings as lists used only through membership.  External
calls (LLM, search providers, the clock) are opaque: their outcomes are
parameters of the embedded functions.
-/

namespace GTM

/-- Model of pydantic `CompanyMeta` (src/graph/state.py): a discovered
company record.  The extraction candidates (`ExtractedCompany`, fields
`name` and `domain`) are converted to `CompanyMeta` on admission via
`CompanyMeta(**company.dict())`, which copies the fields unchanged, so a
single record type serves for both. -/
structure CompanyMeta where
  name : String
  domain : String
  source_url : Option String := none
  deriving DecidableEq, Repr

/-- Model of pydantic `CompanyQualityAnalysis`
(src/agents/quality_evaluator_agent.py lines 17-23). -/
structure CompanyQualityAnalysis where
  company_domain : String
  quality_score : ℚ
  coverage_score : ℚ
  gaps : List String
  evidence_issues : List String
  recommendations : List String
  deriving DecidableEq, Repr

/-- Model of the `state.quality_metrics` dict (`Dict[str, Any]`, default
`{}`, src/graph/state.py line 47).  The quality evaluator stores exactly
the keys below (src/agents/quality_evaluator_agent.py lines 288-296);
a key that is absent from the dict is `none`.  The empty dict is the
record with every field `none`. -/
structure QualityMetricsDict where
  coverage_score : Option ℚ := none
  quality_score : Option ℚ := none
  missing_aspects : Option (List String) := none
  coverage_gaps : Option (List String) := none
  evidence_issues : Option (List String) := none
  recommendations : Option (List String) := none
  company_analyses : Option (List CompanyQualityAnalysis) := none
  deriving DecidableEq, Repr

instance : Inhabited QualityMetricsDict := ⟨{}⟩

/-- Model of `should_continue_research` (src/graph/gtm_graph.py lines
32-51).  `quality_metrics.get('coverage_score', 0)` /
`.get('quality_score', 0)` default missing keys to `0`; the iteration
limit is checked first and wins; otherwise the stage continues iff
coverage is below `0.8` or quality below `0.7`.  (`state.quality_metrics
or {}` is the identity on this model: an absent dict and the empty dict
both read as all-`none`.) -/
def should_continue_research (quality_metrics : QualityMetricsDict)
    (iteration_count max_iterations : Int) : Bool :=
  let coverage_score : ℚ := quality_metrics.coverage_score.getD 0
  let quality_score : ℚ := quality_metrics.quality_score.getD 0
  if max_iterations ≤ iteration_count then
    false
  else
    decide (coverage_score < 8/10) || decide (quality_score < 7/10)

/-- The iteration-counter update performed once per pass by the search
stage (src/agents/multi_source_search_agent.py line 293:
`new_iteration_count = state.iteration_count + 1`). -/
def search_stage_iteration_update (iteration_count : Int) : Int :=
  iteration_count + 1

/-- The feedback loop of the compiled graph (src/graph/gtm_graph.py):
each pass through the loop body runs the stages once — incrementing the
iteration counter exactly once, in the search stage — and then evaluates
`should_continue_research` on the quality metrics produced for that
pass; on `true` the graph re-enters the pipeline at the query stage, on
`false` it ends.  `reports k` is the (arbitrary) quality dict in force
at the check whose counter value is `k`; the result is the number of
passes executed starting from counter value `iteration_count`. -/
def loopPasses (max_iterations : Int) (reports : Nat → QualityMetricsDict)
    (iteration_count : Int) : Nat :=
  if h : should_continue_research
      (reports (search_stage_iteration_update iteration_count).toNat)
      (search_stage_iteration_update iteration_count) max_iterations = true then
    1 + loopPasses max_iterations reports (search_stage_iteration_update iteration_count)
  else
    1
termination_by (max_iterations - iteration_count).toNat
decreasing_by
  simp_wf
  have hlt : search_stage_iteration_update iteration_count < max_iterations := by
    by_contra hle
    simp only [not_lt] at hle
    unfold should_continue_research at h
    simp [hle] at h
  unfold search_stage_iteration_update at hlt ⊢
  omega

/-- Depth-configuration table `SEARCH_DEPTH_CONFIGS`
(src/agents/company_aggregator_agent.py lines 25-29); only the fields
the aggregation logic reads are modelled. -/
structure DepthConfig where
  num_results : Nat
  max_companies : Nat
  deriving DecidableEq, Repr

def SEARCH_DEPTH_CONFIGS (search_depth : String) : Option DepthConfig :=
  if search_depth = "quick" then some ⟨10, 50⟩
  else if search_depth = "standard" then some ⟨20, 100⟩
  else if search_depth = "comprehensive" then some ⟨30, 200⟩
  else none

/-- `SEARCH_DEPTH_CONFIGS.get(search_depth, SEARCH_DEPTH_CONFIGS["standard"])`. -/
def depth_config (search_depth : String) : DepthConfig :=
  (SEARCH_DEPTH_CONFIGS search_depth).getD ⟨20, 100⟩

/-- One run of the dedup-and-cap admission loop of the aggregation
stage (src/agents/company_aggregator_agent.py lines 212-221 for one
fan-out batch, lines 258-266 for the news candidates): iterate the
candidates in order; a candidate whose domain is already in
`seen_domains` is discarded; otherwise its domain is recorded and the
record appended; the loop breaks once the accumulated count has reached
`max_companies` — the check runs immediately **after** each admission.
Returns the updated `seen_domains` and `extracted_companies`. -/
def admitCompanies (max_companies : Nat) (seen_domains : List String)
    (extracted_companies : List CompanyMeta) :
    List CompanyMeta → List String × List CompanyMeta
  | [] => (seen_domains, extracted_companies)
  | company :: rest =>
    if company.domain ∈ seen_domains then
      admitCompanies max_companies seen_domains extracted_companies rest
    else
      let seen' := company.domain :: seen_domains
      let acc' := extracted_companies ++ [company]
      if max_companies ≤ acc'.length then
        (seen', acc')
      else
        admitCompanies max_companies seen' acc' rest

/-- The outer loop of `extract_companies_async` (lines 212-224): process
each fan-out batch with the admission loop and break once the count has
reached `max_companies`. -/
def admitBatches (max_companies : Nat) (seen_domains : List String)
    (extracted_companies : List CompanyMeta) :
    List (List CompanyMeta) → List String × List CompanyMeta
  | [] => (seen_domains, extracted_companies)
  | batch :: rest =>
    let p := admitCompanies max_companies seen_domains extracted_companies batch
    if max_companies ≤ p.2.length then
      p
    else
      admitBatches max_companies p.1 p.2 rest

/-- Entity accumulation of `company_aggregator_agent`: the serper-phase
fan-out batches (`extract_companies_async`) followed by the news-phase
candidates (`extract_news_companies`), both deduplicating against the
same `seen_domains` set, starting empty, and capped by the depth
configuration's `max_companies`.  The extraction calls are opaque:
`batches` and `news` are the candidate records they returned, in the
deterministic fan-out order. -/
def aggregated_companies (search_depth : String)
    (batches : List (List CompanyMeta)) (news : List CompanyMeta) :
    List CompanyMeta :=
  let max_companies := (depth_config search_depth).max_companies
  let p := admitBatches max_companies [] [] batches
  (admitCompanies max_companies p.1 p.2 news).2

/-- Concrete fan-out batch used in closed statements: 50 candidates
with pairwise-distinct domains. -/
def sampleBatch : List CompanyMeta :=
  (List.range 50).map (fun i => { name := toString i, domain := toString i })

/-- Concrete news-phase candidate with a fresh domain. -/
def sampleNews : List CompanyMeta :=
  [{ name := "Extra", domain := "extra.example" }]

/-- `dict.setdefault(key, []).extend(values)` on a `domain → snippets`
map modelled as an insertion-ordered association list: an existing entry
is extended in place, a missing key is appended at the end. -/
def setdefault_extend (m : List (String × List String)) (key : String)
    (values : List String) : List (String × List String) :=
  if m.any (fun e => e.1 == key) then
    m.map (fun e => if e.1 == key then (e.1, e.2 ++ values) else e)
  else
    m ++ [(key, values)]

/-- The keys of an evidence map. -/
def evidence_keys (m : List (String × List String)) : List String :=
  m.map Prod.fst

/-- Evidence lookup, with the empty list for a missing key. -/
def evidence_at (m : List (String × List String)) (key : String) : List String :=
  ((m.find? (fun e => e.1 == key)).map Prod.snd).getD []

/-- Merging a per-source evidence delta — a sequence of
`(entity-key, snippets)` contributions in deterministic fan-out order —
into the existing map, as performed by the
`setdefault(domain, []).extend(result)` loop of `run_serper_searches`
(src/agents/multi_source_search_agent.py lines 250-257). -/
def merge_evidence (base : List (String × List String))
    (delta : List (String × List String)) : List (String × List String) :=
  delta.foldl (fun m kv => setdefault_extend m kv.1 kv.2) base

/-- The snippets a delta contributes for one key: the concatenation of
its entries for that key, in order. -/
def delta_at (delta : List (String × List String)) (key : String) : List String :=
  ((delta.filter (fun e => e.1 == key)).map Prod.snd).flatten

/-- Does the character list start with the given needle? -/
def beginsWith : List Char → List Char → Bool
  | _, [] => true
  | [], _ :: _ => false
  | h :: hs, n :: ns => h == n && beginsWith hs ns

/-- Does the character list contain the needle as a contiguous run? -/
def containsSub : List Char → List Char → Bool
  | [], ns => beginsWith [] ns
  | h :: t, ns => beginsWith (h :: t) ns || containsSub t ns

/-- Python's substring test `needle in hay`. -/
def strContains (hay needle : String) : Bool :=
  containsSub hay.toList needle.toList

/-- Query routing of `run_serper_searches` (lines 242-257): the first
extracted company whose name or domain occurs verbatim in the query
text claims the query; a query matching no company is routed to the
literal `"unknown"` bucket. -/
def route_query (extracted_companies : List CompanyMeta) (query : String) : String :=
  match extracted_companies.find?
      (fun c => strContains query c.name || strContains query c.domain) with
  | some c => c.domain
  | none => "unknown"

/-- The fan-in merge of `run_serper_searches` (lines 238-259): start
from a copy of `state.search_results_serper` and, for each
`(query, result)` pair in fan-out order, extend the routed key's
snippet list with `result`. -/
def run_serper_searches_merge (extracted_companies : List CompanyMeta)
    (base : List (String × List String))
    (results : List (String × List String)) : List (String × List String) :=
  results.foldl
    (fun m qr => setdefault_extend m (route_query extracted_companies qr.1) qr.2)
    base

/-- `CircuitState` (src/utils/circuit_breaker.py lines 8-11). -/
inductive CircuitState
  | CLOSED
  | OPEN
  | HALF_OPEN
  deriving DecidableEq, Repr

/-- `CircuitBreakerConfig` (lines 13-18): defaults `failure_threshold=5`,
`recovery_timeout=60.0`, `success_threshold=2`.  `expected_exception`
defaults to `Exception`, so every failure outcome counts and it is not
modelled separately. -/
structure CircuitBreakerConfig where
  failure_threshold : Nat := 5
  recovery_timeout : ℚ := 60
  success_threshold : Nat := 2
  deriving DecidableEq, Repr

/-- The mutable fields of `CircuitBreaker` (lines 30-37); clock readings
(`time.time()`) are rationals supplied by the caller. -/
structure CircuitBreaker where
  state : CircuitState := .CLOSED
  failure_count : Nat := 0
  success_count : Nat := 0
  last_failure_time : Option ℚ := none
  deriving DecidableEq, Repr

/-- `_can_attempt_reset` (lines 41-45). -/
def can_attempt_reset (config : CircuitBreakerConfig) (cb : CircuitBreaker)
    (now : ℚ) : Bool :=
  match cb.last_failure_time with
  | none => false
  | some t => decide (config.recovery_timeout ≤ now - t)

/-- `_on_success` (lines 47-55): reset the failure count, bump the
success count, and close the circuit when half-open with enough
consecutive successes. -/
def on_success (config : CircuitBreakerConfig) (cb : CircuitBreaker) :
    CircuitBreaker :=
  let cb := { cb with failure_count := 0, success_count := cb.success_count + 1 }
  if cb.state = .HALF_OPEN ∧ config.success_threshold ≤ cb.success_count then
    { cb with state := .CLOSED, success_count := 0 }
  else cb

/-- `_on_failure` (lines 57-68): bump the failure count, reset the
success count, record the failure time; open the circuit from CLOSED at
the failure threshold and from HALF_OPEN immediately. -/
def on_failure (config : CircuitBreakerConfig) (cb : CircuitBreaker)
    (now : ℚ) : CircuitBreaker :=
  let cb := { cb with failure_count := cb.failure_count + 1, success_count := 0,
                      last_failure_time := some now }
  if cb.state = .CLOSED ∧ config.failure_threshold ≤ cb.failure_count then
    { cb with state := .OPEN }
  else if cb.state = .HALF_OPEN then
    { cb with state := .OPEN }
  else cb

/-- Outcome of the wrapped (opaque) async function. -/
inductive CallOutcome
  | success
  | failure
  deriving DecidableEq, Repr

/-- What `CircuitBreaker.call` does: return the function's result,
re-raise its exception, or raise `CircuitBreakerOpenError` without
invoking it. -/
inductive CallResult
  | returned
  | raised
  | failedFast
  deriving DecidableEq, Repr

structure CallStep where
  breaker : CircuitBreaker
  result : CallResult
  invoked : Bool
  deriving DecidableEq, Repr

/-- `CircuitBreaker.call` (lines 70-103): when OPEN, either transition
to HALF_OPEN (resetting `failure_count`) if the recovery timeout has
elapsed since the last failure, or fail fast without invoking the
function; otherwise invoke the function and record its outcome. -/
def circuit_call (config : CircuitBreakerConfig) (cb : CircuitBreaker)
    (now : ℚ) (outcome : CallOutcome) : CallStep :=
  let checked : Option CircuitBreaker :=
    if cb.state = .OPEN then
      if can_attempt_reset config cb now then
        some { cb with state := .HALF_OPEN, failure_count := 0 }
      else none
    else some cb
  match checked with
  | none => { breaker := cb, result := .failedFast, invoked := false }
  | some cb' =>
    match outcome with
    | .success => { breaker := on_success config cb', result := .returned, invoked := true }
    | .failure => { breaker := on_failure config cb' now, result := .raised, invoked := true }

/-- `n` consecutive calls whose outcomes are all failures, the `k`-th at
time `times k`. -/
def applyFailures (config : CircuitBreakerConfig) (cb : CircuitBreaker)
    (times : Nat → ℚ) : Nat → CircuitBreaker
  | 0 => cb
  | n + 1 => (circuit_call config (applyFailures config cb times n) (times n) .failure).breaker

/-- Model of pydantic `CompanyFinding` (src/graph/state.py lines 11-16).
The `findings` payload (`Dict[str, Any]`) is carried opaquely as
key/value string pairs. -/
structure CompanyFinding where
  domain : String
  confidence_score : ℚ
  evidence_sources : Int
  findings : List (String × String)
  signals_found : Int
  deriving DecidableEq, Repr

/-- Model of pydantic `PerformanceStats` (src/graph/state.py lines
19-22). -/
structure PerformanceStats where
  queries_per_second : ℚ
  failed_requests : Int
  cache_hit_rate : Option ℚ
  deriving DecidableEq, Repr

/-- Model of `GTMState` (src/graph/state.py lines 25-56).  The
`strategy_refinement` dict (`Dict[str, Any]`) is carried opaquely as
key/value string pairs. -/
structure GTMState where
  research_goal : String
  search_depth : String := "standard"
  max_parallel_searches : Int := 20
  confidence_threshold : ℚ := 8/10
  search_strategies_generated : Option (List String) := none
  extracted_companies : Option (List CompanyMeta) := none
  search_results_serper : Option (List (String × List String)) := none
  search_results_website : Option (List (String × List String)) := none
  search_results_jobboard : Option (List (String × List String)) := none
  search_results_news : Option (List (String × List String)) := none
  final_findings : List CompanyFinding := []
  quality_metrics : QualityMetricsDict := {}
  strategy_refinement : List (String × String) := []
  iteration_count : Int := 0
  max_iterations : Int := 3
  performance : Option PerformanceStats := none
  deriving DecidableEq, Repr

/-- Model of pydantic `CoverageAnalysis` together with the
`company_analyses` list attached to it by `object.__setattr__`
(src/agents/quality_evaluator_agent.py lines 26-32 and 220). -/
structure CoverageAnalysis where
  coverage_score : ℚ
  missing_aspects : List String
  coverage_gaps : List String
  quality_score : ℚ
  evidence_issues : List String
  recommendations : List String
  company_analyses : List CompanyQualityAnalysis
  deriving DecidableEq, Repr

/-- `quality_evaluator_agent` (src/agents/quality_evaluator_agent.py
lines 224-304): with no findings the state is returned untouched;
otherwise the (opaque, possibly raising) parallel analysis call is
consumed — on success the state's `quality_metrics` dict is rebuilt
from the analysis (lines 288-298), on any raised exception the input
state is returned unchanged (lines 300-304). -/
def quality_evaluator_agent (state : GTMState)
    (analysis : Except String CoverageAnalysis) : GTMState :=
  if state.final_findings = [] then state
  else
    match analysis with
    | .error _ => state
    | .ok a =>
      { state with quality_metrics :=
          { coverage_score := some a.coverage_score
            quality_score := some a.quality_score
            missing_aspects := some a.missing_aspects
            coverage_gaps := some a.coverage_gaps
            evidence_issues := some a.evidence_issues
            recommendations := some a.recommendations
            company_analyses := some a.company_analyses } }

/-- `ttl = ttl or self.default_ttl` (src/utils/cache.py line 42): both
`None` and the falsy `0` fall back to the 3600-second default. -/
def cache_ttl (ttl : Option Int) : Int :=
  match ttl with
  | none => 3600
  | some t => if t = 0 then 3600 else t

/-- `InMemoryCache.set` (src/utils/cache.py lines 39-48): the entry's
expiry is `time.time() + ttl` after the default fallback.  The dict is
an insertion-ordered association list with unique keys: an existing key
is overwritten in place, a new key appended. -/
def cache_set {V : Type} (cache : List (String × V × ℚ)) (key : String)
    (value : V) (ttl : Option Int) (now : ℚ) : List (String × V × ℚ) :=
  let entry : V × ℚ := (value, now + (cache_ttl ttl : ℚ))
  if cache.any (fun e => e.1 == key) then
    cache.map (fun e => if e.1 == key then (e.1, entry) else e)
  else
    cache ++ [(key, entry)]

/-- `InMemoryCache.get` (lines 24-37): a present key whose expiry lies
strictly in the future returns its value; an expired key is deleted and
`None` returned.  Returns the value and the possibly-shrunk cache. -/
def cache_get {V : Type} (cache : List (String × V × ℚ)) (key : String)
    (now : ℚ) : Option V × List (String × V × ℚ) :=
  match cache.find? (fun e => e.1 == key) with
  | none => (none, cache)
  | some e =>
    if now < e.2.2 then (some e.2.1, cache)
    else (none, cache.filter (fun e' => !(e'.1 == key)))

end GTM

open GTM

lemma should_continue_research_lt {qm : QualityMetricsDict}
    {ic mi : Int} (h : should_continue_research qm ic mi = true) :
    ic < mi := by
  unfold should_continue_research at h
  by_cases hle : mi ≤ ic
  · simp [hle] at h
  · exact lt_of_not_le hle

/-- C1: the loop-continuation predicate returns `true` iff
`iterationCount < maxIterations` and (`coverageScore < 0.8` or
`qualityScore < 0.7`); with coverage `0.5`, quality `0.9`, iteration `1`
of `3` it returns `true`; with coverage `0.85` and quality `0.75` it
returns `false` for every remaining iteration budget. -/
theorem C1_continuation_predicate :
    (∀ (qm : QualityMetricsDict) (ic mi : Int),
      should_continue_research qm ic mi = true ↔
        ic < mi ∧ (qm.coverage_score.getD 0 < 8/10 ∨ qm.quality_score.getD 0 < 7/10))
    ∧ should_continue_research
        { coverage_score := some (1/2), quality_score := some (9/10) } 1 3 = true
    ∧ (∀ ic mi : Int, ic < mi →
        should_continue_research
          { coverage_score := some (17/20), quality_score := some (3/4) } ic mi = false) := by
  refine ⟨?_, by norm_num [should_continue_research], ?_⟩
  · intro qm ic mi
    unfold should_continue_research
    by_cases hle : mi ≤ ic
    · simp [hle, not_lt.mpr hle]
    · simp [hle, lt_of_not_le hle]
  · intro ic mi h
    have hle : ¬ mi ≤ ic := not_le.mpr h
    unfold should_continue_research
    rw [if_neg hle]
    norm_num

/-- Closed witness for C1 at a concrete state. -/
theorem C1_continuation_predicate_witness :
    should_continue_research
      { coverage_score := some (17/20), quality_score := some (3/4) } 0 1 = false :=
  C1_continuation_predicate.2.2 0 1 (by decide)

/-- C10: with quality metrics empty or lacking the `coverage_score` /
`quality_score` keys, both scores are read as `0`, so the predicate
equals its value on explicit zero scores and returns `true` exactly when
`iterationCount < maxIterations`. -/
theorem C10_missing_metrics_continue :
    ∀ (qm : QualityMetricsDict) (ic mi : Int),
      qm.coverage_score = none → qm.quality_score = none →
      (should_continue_research qm ic mi =
          should_continue_research
            { qm with coverage_score := some 0, quality_score := some 0 } ic mi
        ∧ (should_continue_research qm ic mi = true ↔ ic < mi)) := by
  intro qm ic mi hc hq
  unfold should_continue_research
  rw [hc, hq]
  by_cases hle : mi ≤ ic
  · simp [hle, not_lt.mpr hle]
  · simp [hle, lt_of_not_le hle]

/-- Closed witness for C10: the empty quality-metrics dict at iteration
0 of 3 continues. -/
theorem C10_missing_metrics_continue_witness :
    should_continue_research {} 0 3 = true := by
  have h := C10_missing_metrics_continue {} 0 3 rfl rfl
  exact h.2.mpr (by decide)

lemma should_continue_research_false_of_le {qm : QualityMetricsDict}
    {ic mi : Int} (h : mi ≤ ic) : should_continue_research qm ic mi = false := by
  unfold should_continue_research
  simp [h]

lemma loopPasses_one_of_nonpos (mi : Int) (reports : Nat → QualityMetricsDict)
    (ic : Int) (h : mi ≤ ic + 1) : loopPasses mi reports ic = 1 := by
  have hf : should_continue_research
      (reports (search_stage_iteration_update ic).toNat)
      (search_stage_iteration_update ic) mi = false :=
    should_continue_research_false_of_le (by unfold search_stage_iteration_update; exact h)
  rw [loopPasses]
  simp [hf]

lemma loopPasses_add_le (n : Nat) :
    ∀ (mi : Int) (reports : Nat → QualityMetricsDict) (ic : Int),
      (mi - ic).toNat = n → ic < mi →
      ic + (loopPasses mi reports ic : Int) ≤ mi := by
  induction n using Nat.strong_induction_on with
  | _ n ih =>
    intro mi r ic hn hlt
    by_cases hc : should_continue_research
        (r (search_stage_iteration_update ic).toNat)
        (search_stage_iteration_update ic) mi = true
    · rw [loopPasses, dif_pos hc]
      have h2 := should_continue_research_lt hc
      unfold search_stage_iteration_update at h2 ⊢
      have hrec := ih (mi - (ic + 1)).toNat (by omega) mi r (ic + 1) rfl h2
      push_cast at hrec ⊢
      omega
    · rw [loopPasses, dif_neg hc]
      push_cast
      omega

/-- C2 (amended): for `maxIterations ≥ 1` and every sequence of quality
reports, the feedback loop — whose iteration counter starts at 0 and is
incremented exactly once per pass, in the search stage — terminates
within `maxIterations` passes, and the counter value seen at every
loop-continuation check (namely `1, …, passes`) is `≤ maxIterations`;
for `maxIterations ≤ 0` the pipeline still executes exactly one pass,
so the bound as originally stated fails there. -/
theorem C2_forced_termination_amended :
    (∀ (mi : Int) (reports : Nat → QualityMetricsDict), 1 ≤ mi →
        ((loopPasses mi reports 0 : Int) ≤ mi
          ∧ ∀ k : Nat, k ≤ loopPasses mi reports 0 → (k : Int) ≤ mi))
    ∧ ∀ (mi : Int) (reports : Nat → QualityMetricsDict), mi ≤ 0 →
        loopPasses mi reports 0 = 1 := by
  constructor
  · intro mi r h1
    have hb := loopPasses_add_le (mi - 0).toNat mi r 0 rfl (by omega)
    refine ⟨by omega, ?_⟩
    intro k hk
    have hk' : (k : Int) ≤ (loopPasses mi r 0 : Int) := by exact_mod_cast hk
    omega
  · intro mi r h0
    exact loopPasses_one_of_nonpos mi r 0 (by omega)

/-- Closed witness for C2 (amended) at `maxIterations = 3`. -/
theorem C2_forced_termination_amended_witness :
    (loopPasses 3 (fun _ => ({} : QualityMetricsDict)) 0 : Int) ≤ 3 :=
  (C2_forced_termination_amended.1 3 (fun _ => ({} : QualityMetricsDict)) (by decide)).1

/-- C2 counterexample: with `maxIterations = 0` (the field is an
unvalidated Python `int`) the pipeline still executes one pass — the
graph enters the query stage unconditionally — so the loop does not
terminate "within maxIterations passes" and the continuation check sees
`iterationCount = 1 > 0 = maxIterations`. -/
theorem C2_counterexample_zero_budget :
    loopPasses 0 (fun _ => ({} : QualityMetricsDict)) 0 = 1 ∧
      ¬ ((loopPasses 0 (fun _ => ({} : QualityMetricsDict)) 0 : Int) ≤ 0) := by
  have h1 : loopPasses 0 (fun _ => ({} : QualityMetricsDict)) 0 = 1 :=
    loopPasses_one_of_nonpos 0 _ 0 (by omega)
  refine ⟨h1, ?_⟩
  rw [h1]
  omega

lemma find?_append_left {α : Type} {p : α → Bool} {l₁ l₂ : List α} {a : α}
    (h : l₁.find? p = some a) : (l₁ ++ l₂).find? p = some a := by
  rw [List.find?_append, h]; rfl

lemma find?_append_right {α : Type} {p : α → Bool} {l₁ l₂ : List α}
    (h : l₁.find? p = none) : (l₁ ++ l₂).find? p = l₂.find? p := by
  rw [List.find?_append, h]; rfl

lemma seen_invariant_extend {seen : List String} {acc : List CompanyMeta} (c : CompanyMeta)
    (h1 : ∀ d, d ∈ seen ↔ d ∈ acc.map CompanyMeta.domain) :
    ∀ d, d ∈ c.domain :: seen ↔ d ∈ ((acc ++ [c]).map CompanyMeta.domain) := by
  intro d
  simp only [List.mem_cons, List.map_append, List.mem_append, List.map_cons, List.map_nil,
    List.mem_singleton, h1]
  tauto

lemma admitCompanies_sound (maxC : Nat) :
    ∀ (batch : List CompanyMeta) (seen : List String) (acc : List CompanyMeta),
      (∀ d, d ∈ seen ↔ d ∈ acc.map CompanyMeta.domain) →
      (acc.map CompanyMeta.domain).Nodup →
      ((∀ d, d ∈ (admitCompanies maxC seen acc batch).1 ↔
          d ∈ ((admitCompanies maxC seen acc batch).2.map CompanyMeta.domain))
        ∧ ((admitCompanies maxC seen acc batch).2.map CompanyMeta.domain).Nodup
        ∧ ∃ t, (admitCompanies maxC seen acc batch).2 = acc ++ t) := by
  intro batch
  induction batch with
  | nil =>
    intro seen acc h1 h2
    exact ⟨h1, h2, [], by simp [admitCompanies]⟩
  | cons c rest ih =>
    intro seen acc h1 h2
    by_cases hm : c.domain ∈ seen
    · simpa [admitCompanies, hm] using ih seen acc h1 h2
    · have hnm : c.domain ∉ acc.map CompanyMeta.domain := fun hx => hm ((h1 _).mpr hx)
      have h1' := seen_invariant_extend c h1
      have h2' : ((acc ++ [c]).map CompanyMeta.domain).Nodup := by
        rw [List.map_append, List.nodup_append]
        exact ⟨h2, List.nodup_singleton _,
          fun a ha hb => by
            simp only [List.map_cons, List.map_nil, List.mem_singleton] at hb
            exact hnm (hb ▸ ha)⟩
      by_cases hcap : maxC ≤ acc.length + 1
      · have hres : admitCompanies maxC seen acc (c :: rest) = (c.domain :: seen, acc ++ [c]) := by
          simp [admitCompanies, hm, hcap]
        rw [hres]
        exact ⟨h1', h2', [c], rfl⟩
      · have hres : admitCompanies maxC seen acc (c :: rest)
            = admitCompanies maxC (c.domain :: seen) (acc ++ [c]) rest := by
          simp [admitCompanies, hm, hcap]
        rw [hres]
        obtain ⟨g1, g2, t, ht⟩ := ih (c.domain :: seen) (acc ++ [c]) h1' h2'
        exact ⟨g1, g2, [c] ++ t, by rw [ht, List.append_assoc]⟩

lemma admitBatches_sound (maxC : Nat) :
    ∀ (batches : List (List CompanyMeta)) (seen : List String) (acc : List CompanyMeta),
      (∀ d, d ∈ seen ↔ d ∈ acc.map CompanyMeta.domain) →
      (acc.map CompanyMeta.domain).Nodup →
      ((∀ d, d ∈ (admitBatches maxC seen acc batches).1 ↔
          d ∈ ((admitBatches maxC seen acc batches).2.map CompanyMeta.domain))
        ∧ ((admitBatches maxC seen acc batches).2.map CompanyMeta.domain).Nodup
        ∧ ∃ t, (admitBatches maxC seen acc batches).2 = acc ++ t) := by
  intro batches
  induction batches with
  | nil =>
    intro seen acc h1 h2
    exact ⟨h1, h2, [], by simp [admitBatches]⟩
  | cons b rest ih =>
    intro seen acc h1 h2
    obtain ⟨g1, g2, t, ht⟩ := admitCompanies_sound maxC b seen acc h1 h2
    by_cases hcap : maxC ≤ (admitCompanies maxC seen acc b).2.length
    · have hres : admitBatches maxC seen acc (b :: rest) = admitCompanies maxC seen acc b := by
        simp [admitBatches, hcap]
      rw [hres]
      exact ⟨g1, g2, t, ht⟩
    · have hres : admitBatches maxC seen acc (b :: rest)
          = admitBatches maxC (admitCompanies maxC seen acc b).1
              (admitCompanies maxC seen acc b).2 rest := by
        simp [admitBatches, hcap]
      rw [hres]
      obtain ⟨k1, k2, u, hu⟩ := ih _ _ g1 g2
      exact ⟨k1, k2, t ++ u, by rw [hu, ht, List.append_assoc]⟩

lemma admitCompanies_length_le (maxC : Nat) :
    ∀ (batch : List CompanyMeta) (seen : List String) (acc : List CompanyMeta),
      acc.length < maxC → (admitCompanies maxC seen acc batch).2.length ≤ maxC := by
  intro batch
  induction batch with
  | nil =>
    intro seen acc h
    simpa [admitCompanies] using Nat.le_of_lt h
  | cons c rest ih =>
    intro seen acc h
    by_cases hm : c.domain ∈ seen
    · simpa [admitCompanies, hm] using ih seen acc h
    · by_cases hcap : maxC ≤ acc.length + 1
      · have hres : admitCompanies maxC seen acc (c :: rest) = (c.domain :: seen, acc ++ [c]) := by
          simp [admitCompanies, hm, hcap]
        rw [hres]
        simp
        omega
      · have hres : admitCompanies maxC seen acc (c :: rest)
            = admitCompanies maxC (c.domain :: seen) (acc ++ [c]) rest := by
          simp [admitCompanies, hm, hcap]
        rw [hres]
        exact ih (c.domain :: seen) (acc ++ [c]) (by simpa using lt_of_not_le hcap)

lemma admitCompanies_length_cap (maxC : Nat) :
    ∀ (batch : List CompanyMeta) (seen : List String) (acc : List CompanyMeta),
      maxC ≤ acc.length → (admitCompanies maxC seen acc batch).2.length ≤ acc.length + 1 := by
  intro batch
  induction batch with
  | nil =>
    intro seen acc h
    simp [admitCompanies]
  | cons c rest ih =>
    intro seen acc h
    by_cases hm : c.domain ∈ seen
    · simpa [admitCompanies, hm] using ih seen acc h
    · have hcap : maxC ≤ acc.length + 1 := by omega
      have hres : admitCompanies maxC seen acc (c :: rest) = (c.domain :: seen, acc ++ [c]) := by
        simp [admitCompanies, hm, hcap]
      rw [hres]
      simp

lemma admitBatches_length_le (maxC : Nat) :
    ∀ (batches : List (List CompanyMeta)) (seen : List String) (acc : List CompanyMeta),
      acc.length < maxC → (admitBatches maxC seen acc batches).2.length ≤ maxC := by
  intro batches
  induction batches with
  | nil =>
    intro seen acc h
    simpa [admitBatches] using Nat.le_of_lt h
  | cons b rest ih =>
    intro seen acc h
    have hb := admitCompanies_length_le maxC b seen acc h
    by_cases hcap : maxC ≤ (admitCompanies maxC seen acc b).2.length
    · simpa [admitBatches, hcap] using hb
    · simpa [admitBatches, hcap] using ih _ _ (lt_of_not_le hcap)

lemma depth_config_max_companies_pos (s : String) : 0 < (depth_config s).max_companies := by
  unfold depth_config SEARCH_DEPTH_CONFIGS
  split_ifs <;> decide

lemma aggregated_eq (s : String) (batches : List (List CompanyMeta)) (news : List CompanyMeta) :
    aggregated_companies s batches news
      = (admitCompanies (depth_config s).max_companies
          (admitBatches (depth_config s).max_companies [] [] batches).1
          (admitBatches (depth_config s).max_companies [] [] batches).2 news).2 := rfl

lemma admitCompanies_first_seen (maxC : Nat) :
    ∀ (batch : List CompanyMeta) (seen : List String) (acc past : List CompanyMeta),
      (∀ d, d ∈ seen ↔ d ∈ acc.map CompanyMeta.domain) →
      (∀ x ∈ past, x.domain ∈ seen) →
      (∀ c ∈ acc, past.find? (fun x => x.domain == c.domain) = some c) →
      ∀ c ∈ (admitCompanies maxC seen acc batch).2,
        (past ++ batch).find? (fun x => x.domain == c.domain) = some c := by
  intro batch
  induction batch with
  | nil =>
    intro seen acc past h1 h5 h3 c hc
    simp only [admitCompanies] at hc
    simpa using h3 c hc
  | cons x rest ih =>
    intro seen acc past h1 h5 h3 c hc
    rw [show past ++ x :: rest = (past ++ [x]) ++ rest by simp]
    by_cases hm : x.domain ∈ seen
    · have h5' : ∀ y ∈ past ++ [x], y.domain ∈ seen := by
        intro y hy
        rcases List.mem_append.mp hy with h | h
        · exact h5 y h
        · rcases List.mem_singleton.mp h with rfl
          exact hm
      have h3' : ∀ c' ∈ acc, (past ++ [x]).find? (fun z => z.domain == c'.domain) = some c' :=
        fun c' hc' => find?_append_left (h3 c' hc')
      exact ih seen acc (past ++ [x]) h1 h5' h3' c (by simpa [admitCompanies, hm] using hc)
    · have h1' := seen_invariant_extend x h1
      have hpastnone : past.find? (fun z => z.domain == x.domain) = none := by
        rw [List.find?_eq_none]
        intro y hy
        have hys : y.domain ∈ seen := h5 y hy
        simp only [beq_iff_eq]
        intro he
        exact hm (he ▸ hys)
      have h3' : ∀ c' ∈ acc ++ [x],
          (past ++ [x]).find? (fun z => z.domain == c'.domain) = some c' := by
        intro c' hc'
        rcases List.mem_append.mp hc' with h | h
        · exact find?_append_left (h3 c' h)
        · rcases List.mem_singleton.mp h with rfl
          rw [find?_append_right hpastnone]
          simp [List.find?_cons]
      have h5' : ∀ y ∈ past ++ [x], y.domain ∈ x.domain :: seen := by
        intro y hy
        rcases List.mem_append.mp hy with h | h
        · exact List.mem_cons_of_mem _ (h5 y h)
        · rcases List.mem_singleton.mp h with rfl
          exact List.mem_cons_self _ _
      by_cases hcap : maxC ≤ acc.length + 1
      · have hres : admitCompanies maxC seen acc (x :: rest) = (x.domain :: seen, acc ++ [x]) := by
          simp [admitCompanies, hm, hcap]
        rw [hres] at hc
        exact find?_append_left (h3' c hc)
      · have hres : admitCompanies maxC seen acc (x :: rest)
            = admitCompanies maxC (x.domain :: seen) (acc ++ [x]) rest := by
          simp [admitCompanies, hm, hcap]
        rw [hres] at hc
        exact ih (x.domain :: seen) (acc ++ [x]) (past ++ [x]) h1' h5' h3' c hc

lemma admitCompanies_all_new (maxC : Nat) :
    ∀ (cand : List CompanyMeta) (seen : List String) (acc : List CompanyMeta),
      (∀ c ∈ cand, c.domain ∉ seen) →
      ((cand.map CompanyMeta.domain).Nodup) →
      acc.length + cand.length ≤ maxC →
      (admitCompanies maxC seen acc cand).2 = acc ++ cand := by
  intro cand
  induction cand with
  | nil =>
    intro seen acc _ _ _
    simp [admitCompanies]
  | cons x rest ih =>
    intro seen acc hnew hnd hlen
    have hm : x.domain ∉ seen := hnew x (List.mem_cons_self _ _)
    have hnd' : (x.domain ∉ rest.map CompanyMeta.domain)
        ∧ (rest.map CompanyMeta.domain).Nodup :=
      List.nodup_cons.mp (by simpa using hnd)
    by_cases hcap : maxC ≤ acc.length + 1
    · have hr : rest = [] := by
        have hl : acc.length + (rest.length + 1) ≤ maxC := by simpa using hlen
        have : rest.length = 0 := by omega
        exact List.eq_nil_of_length_eq_zero this
      subst hr
      have hres : admitCompanies maxC seen acc [x] = (x.domain :: seen, acc ++ [x]) := by
        simp [admitCompanies, hm, hcap]
      rw [hres]
    · have hres : admitCompanies maxC seen acc (x :: rest)
          = admitCompanies maxC (x.domain :: seen) (acc ++ [x]) rest := by
        simp [admitCompanies, hm, hcap]
      rw [hres]
      have hnew' : ∀ c ∈ rest, c.domain ∉ x.domain :: seen := by
        intro c hc hmem
        rcases List.mem_cons.mp hmem with h | h
        · exact hnd'.1 (h ▸ List.mem_map_of_mem _ hc)
        · exact hnew c (List.mem_cons_of_mem _ hc) h
      have hlen' : (acc ++ [x]).length + rest.length ≤ maxC := by
        simp only [List.length_append, List.length_singleton]
        simp only [List.length_cons] at hlen
        omega
      rw [ih (x.domain :: seen) (acc ++ [x]) hnew' hnd'.2 hlen']
      simp

/-- C3: the aggregation stage's dedup is first-seen-wins — for every
input the aggregated `extracted_companies` list has pairwise-distinct
domains; every record the admission loop keeps is the *first* candidate
of the input carrying its domain (later sightings are dropped whole,
nothing merged); and running the admission loop again on its own output
returns that output unchanged. -/
theorem C3_dedup_first_seen_idempotent :
    (∀ (s : String) (batches : List (List CompanyMeta)) (news : List CompanyMeta),
        ((aggregated_companies s batches news).map CompanyMeta.domain).Nodup)
    ∧ (∀ (maxC : Nat) (l : List CompanyMeta) (c : CompanyMeta),
        c ∈ (admitCompanies maxC [] [] l).2 →
          l.find? (fun x => x.domain == c.domain) = some c)
    ∧ (∀ (maxC : Nat) (l : List CompanyMeta), 1 ≤ maxC →
        (admitCompanies maxC [] [] ((admitCompanies maxC [] [] l).2)).2
          = (admitCompanies maxC [] [] l).2) := by
  refine ⟨?_, ?_, ?_⟩
  · intro s batches news
    rw [aggregated_eq]
    obtain ⟨g1, g2, -⟩ :=
      admitBatches_sound (depth_config s).max_companies batches [] [] (by simp) (by simp)
    exact (admitCompanies_sound _ news _ _ g1 g2).2.1
  · intro maxC l c hc
    simpa using admitCompanies_first_seen maxC l [] [] [] (by simp) (by simp) (by simp) c hc
  · intro maxC l h1
    have hnd : ((admitCompanies maxC [] [] l).2.map CompanyMeta.domain).Nodup :=
      (admitCompanies_sound maxC l [] [] (by simp) (by simp)).2.1
    have hlen : (admitCompanies maxC [] [] l).2.length ≤ maxC :=
      admitCompanies_length_le maxC l [] [] (by simp only [List.length_nil]; omega)
    simpa using
      admitCompanies_all_new maxC ((admitCompanies maxC [] [] l).2) [] []
        (by simp) hnd (by simpa using hlen)

/-- Closed witness for C3: first-seen lookup and idempotence at concrete
inputs. -/
theorem C3_dedup_first_seen_idempotent_witness :
    ([({ name := "A", domain := "a.example" } : CompanyMeta)].find?
        (fun x => x.domain == ({ name := "A", domain := "a.example" } : CompanyMeta).domain)
      = some { name := "A", domain := "a.example" })
    ∧ (admitCompanies 1 [] [] ((admitCompanies 1 [] [] ([] : List CompanyMeta)).2)).2
        = (admitCompanies 1 [] [] ([] : List CompanyMeta)).2 :=
  ⟨C3_dedup_first_seen_idempotent.2.1 5 [{ name := "A", domain := "a.example" }]
      { name := "A", domain := "a.example" } (by decide),
   C3_dedup_first_seen_idempotent.2.2 1 [] (by decide)⟩

/-- C4 (amended): the aggregation stage admits no new entity once the
count has reached the depth configuration's `max_companies` *at a cap
check*, but the news phase checks the cap only **after** admitting, so
when the serper phase already filled the list to the cap one extra news
entity can slip in: for every input the result has at most
`max_companies + 1` members (and the serper phase alone respects
`max_companies` exactly); entities already admitted are kept — the
result extends the serper-phase list. -/
theorem C4_entity_cap_amended :
    ∀ (s : String) (batches : List (List CompanyMeta)) (news : List CompanyMeta),
      (aggregated_companies s batches news).length ≤ (depth_config s).max_companies + 1
      ∧ (admitBatches (depth_config s).max_companies [] [] batches).2.length
          ≤ (depth_config s).max_companies
      ∧ ∃ t, aggregated_companies s batches news
          = (admitBatches (depth_config s).max_companies [] [] batches).2 ++ t := by
  intro s batches news
  have hpos : 0 < (depth_config s).max_companies := depth_config_max_companies_pos s
  have hserp : (admitBatches (depth_config s).max_companies [] [] batches).2.length
      ≤ (depth_config s).max_companies :=
    admitBatches_length_le _ batches [] [] (by simp only [List.length_nil]; omega)
  obtain ⟨g1, g2, -⟩ :=
    admitBatches_sound (depth_config s).max_companies batches [] [] (by simp) (by simp)
  obtain ⟨-, -, t, ht⟩ := admitCompanies_sound (depth_config s).max_companies news _ _ g1 g2
  refine ⟨?_, hserp, ⟨t, by rw [aggregated_eq]; exact ht⟩⟩
  rw [aggregated_eq]
  rcases Nat.lt_or_ge (admitBatches (depth_config s).max_companies [] [] batches).2.length
      (depth_config s).max_companies with hlt | hge
  · exact le_trans (admitCompanies_length_le _ news _ _ hlt) (Nat.le_succ _)
  · have hcap := admitCompanies_length_cap (depth_config s).max_companies news
      (admitBatches (depth_config s).max_companies [] [] batches).1
      (admitBatches (depth_config s).max_companies [] [] batches).2 hge
    omega

/-- C4 counterexample: with `search_depth = "quick"` (`max_companies =
50`), a serper phase that fills the list to exactly 50 entities followed
by one fresh news candidate yields 51 extracted companies — one more
than the claimed `maxEntities` bound. -/
theorem C4_counterexample_news_overflow :
    (aggregated_companies "quick" [sampleBatch] sampleNews).length
      = (depth_config "quick").max_companies + 1
    ∧ ¬ ((aggregated_companies "quick" [sampleBatch] sampleNews).length
        ≤ (depth_config "quick").max_companies) := by
  decide


lemma evidence_at_cons (e : String × List String) (m : List (String × List String))
    (k : String) :
    evidence_at (e :: m) k = if e.1 == k then e.2 else evidence_at m k := by
  unfold evidence_at
  cases h : e.1 == k <;> simp [List.find?_cons, h]

lemma evidence_at_map_extend (k : String) (v : List String) :
    ∀ (m : List (String × List String)) (k' : String), k' ≠ k →
      evidence_at (m.map (fun e => if e.1 == k then (e.1, e.2 ++ v) else e)) k'
        = evidence_at m k' := by
  intro m
  induction m with
  | nil => intro k' _; rfl
  | cons e m ih =>
    intro k' hne
    rw [List.map_cons, evidence_at_cons, evidence_at_cons]
    have hfst : (if e.1 == k then ((e.1, e.2 ++ v) : String × List String) else e).1 = e.1 := by
      by_cases h : (e.1 == k) = true <;> simp [h]
    rw [hfst]
    by_cases hp : (e.1 == k') = true
    · rw [if_pos hp, if_pos hp]
      have hek : (e.1 == k) = false := by
        rw [beq_eq_false_iff_ne]
        intro h
        exact hne (by rw [← beq_iff_eq.mp hp, h])
      simp [hek]
    · rw [if_neg hp, if_neg hp]
      exact ih k' hne

lemma evidence_at_map_extend_self (k : String) (v : List String) :
    ∀ (m : List (String × List String)), k ∈ evidence_keys m →
      evidence_at (m.map (fun e => if e.1 == k then (e.1, e.2 ++ v) else e)) k
        = evidence_at m k ++ v := by
  intro m
  induction m with
  | nil =>
    intro h
    simp [evidence_keys] at h
  | cons e m ih =>
    intro hmem
    rw [List.map_cons, evidence_at_cons, evidence_at_cons]
    have hfst : (if e.1 == k then ((e.1, e.2 ++ v) : String × List String) else e).1 = e.1 := by
      by_cases h : (e.1 == k) = true <;> simp [h]
    rw [hfst]
    by_cases hp : (e.1 == k) = true
    · rw [if_pos hp, if_pos hp]
      simp [hp]
    · rw [if_neg hp, if_neg hp]
      apply ih
      have hiff : k ∈ evidence_keys (e :: m) ↔ k = e.1 ∨ k ∈ evidence_keys m := by
        simp [evidence_keys, eq_comm]
      rcases hiff.mp hmem with h | h
      · exact absurd (beq_iff_eq.mpr h.symm) hp
      · exact h

lemma evidence_at_setdefault_extend (m : List (String × List String)) (k : String)
    (v : List String) (k' : String) :
    evidence_at (setdefault_extend m k v) k'
      = if k' = k then evidence_at m k ++ v else evidence_at m k' := by
  unfold setdefault_extend
  by_cases hany : m.any (fun e => e.1 == k) = true
  · rw [if_pos hany]
    by_cases hk : k' = k
    · subst hk
      rw [if_pos rfl]
      apply evidence_at_map_extend_self
      rcases List.any_eq_true.mp hany with ⟨e, he, hbe⟩
      exact (beq_iff_eq.mp hbe) ▸ List.mem_map_of_mem _ he
    · rw [if_neg hk]
      exact evidence_at_map_extend k v m k' hk
  · rw [if_neg hany]
    by_cases hk : k' = k
    · subst hk
      rw [if_pos rfl]
      have hnone : m.find? (fun e => e.1 == k') = none := by
        rw [List.find?_eq_none]
        intro x hx hbe
        exact hany (List.any_eq_true.mpr ⟨x, hx, hbe⟩)
      have h0 : evidence_at m k' = [] := by
        unfold evidence_at
        rw [hnone]
        rfl
      rw [h0]
      unfold evidence_at
      rw [find?_append_right hnone, List.find?_cons_of_pos _ (by simp)]
      rfl
    · rw [if_neg hk]
      unfold evidence_at
      rw [List.find?_append]
      have hlast : List.find? (fun e => e.1 == k') [(k, v)] = none := by
        rw [List.find?_eq_none]
        intro x hx hbe
        rcases List.mem_singleton.mp hx with rfl
        exact hk (beq_iff_eq.mp hbe).symm
      rw [hlast]
      cases m.find? (fun e => e.1 == k') <;> rfl

lemma mem_keys_setdefault_extend (m : List (String × List String)) (k : String)
    (v : List String) (k' : String) :
    k' ∈ evidence_keys (setdefault_extend m k v) ↔ k' ∈ evidence_keys m ∨ k' = k := by
  unfold setdefault_extend
  by_cases hany : m.any (fun e => e.1 == k) = true
  · rw [if_pos hany]
    have hk : k ∈ evidence_keys m := by
      rcases List.any_eq_true.mp hany with ⟨e, he, hbe⟩
      exact (beq_iff_eq.mp hbe) ▸ List.mem_map_of_mem _ he
    have hkeys : evidence_keys
        (m.map (fun e => if e.1 == k then (e.1, e.2 ++ v) else e)) = evidence_keys m := by
      unfold evidence_keys
      rw [List.map_map]
      apply List.map_congr_left
      intro e _
      by_cases h : e.1 = k <;> simp [h]
    rw [hkeys]
    constructor
    · exact Or.inl
    · rintro (h | rfl)
      · exact h
      · exact hk
  · rw [if_neg hany]
    unfold evidence_keys
    simp

/-- C5: merging a per-source evidence delta into the existing evidence
map is a deep union — the lookup of every key in the merged map is the
base entry followed by the concatenated delta contributions for that
key (so keys on one side only are kept as-is and no string is dropped
or overwritten), the merged key set is the union of both key sets, and
the search stage's fan-in loop is exactly this merge with the routed
key of each `(query, result)` pair. -/
theorem C5_evidence_merge_deep_union :
    (∀ (base delta : List (String × List String)) (k : String),
        evidence_at (merge_evidence base delta) k
          = evidence_at base k ++ delta_at delta k)
    ∧ (∀ (base delta : List (String × List String)) (k : String),
        k ∈ evidence_keys (merge_evidence base delta) ↔
          k ∈ evidence_keys base ∨ k ∈ evidence_keys delta)
    ∧ (∀ (companies : List CompanyMeta) (base results : List (String × List String)),
        run_serper_searches_merge companies base results
          = merge_evidence base
              (results.map (fun qr => (route_query companies qr.1, qr.2)))) := by
  have hmain : ∀ (delta base : List (String × List String)) (k : String),
      evidence_at (merge_evidence base delta) k
        = evidence_at base k ++ delta_at delta k := by
    intro delta
    induction delta with
    | nil =>
      intro base k
      simp [merge_evidence, delta_at]
    | cons kv ds ih =>
      intro base k
      have hstep : merge_evidence base (kv :: ds)
          = merge_evidence (setdefault_extend base kv.1 kv.2) ds := rfl
      rw [hstep, ih, evidence_at_setdefault_extend]
      have hdelta : delta_at (kv :: ds) k
          = if (kv.1 == k) = true then kv.2 ++ delta_at ds k else delta_at ds k := by
        unfold delta_at
        rw [List.filter_cons]
        by_cases h : (kv.1 == k) = true <;> simp [h]
      rw [hdelta]
      by_cases h : k = kv.1
      · rw [if_pos h, if_pos (beq_iff_eq.mpr h.symm), ← h, List.append_assoc]
      · rw [if_neg h, if_neg (by simp only [beq_iff_eq]; exact fun he => h he.symm)]
  have hkeys : ∀ (delta base : List (String × List String)) (k : String),
      k ∈ evidence_keys (merge_evidence base delta) ↔
        k ∈ evidence_keys base ∨ k ∈ evidence_keys delta := by
    intro delta
    induction delta with
    | nil =>
      intro base k
      simp [merge_evidence, evidence_keys]
    | cons kv ds ih =>
      intro base k
      have hstep : merge_evidence base (kv :: ds)
          = merge_evidence (setdefault_extend base kv.1 kv.2) ds := rfl
      rw [hstep, ih, mem_keys_setdefault_extend]
      have : evidence_keys (kv :: ds) = kv.1 :: evidence_keys ds := rfl
      rw [this]
      simp only [List.mem_cons]
      tauto
  refine ⟨fun base delta k => hmain delta base k,
          fun base delta k => hkeys delta base k, ?_⟩
  intro companies base results
  unfold run_serper_searches_merge merge_evidence
  rw [List.foldl_map]

lemma route_query_cases (companies : List CompanyMeta) (q : String) :
    (∃ c ∈ companies, route_query companies q = c.domain)
      ∨ route_query companies q = "unknown" := by
  unfold route_query
  split
  next c hfind => exact Or.inl ⟨c, List.mem_of_find?_eq_some hfind, rfl⟩
  next hfind => exact Or.inr rfl

/-- C6 (amended): after the search stage's fan-in merge, every key of
the serper evidence map is either the domain of some extracted company
or the literal fallback bucket `"unknown"` (used for a query whose text
contains no company's name or domain), provided every key already in
the base map satisfies the same property. -/
theorem C6_evidence_keys_amended :
    ∀ (companies : List CompanyMeta) (results base : List (String × List String)),
      (∀ k ∈ evidence_keys base, (∃ c ∈ companies, c.domain = k) ∨ k = "unknown") →
      ∀ k ∈ evidence_keys (run_serper_searches_merge companies base results),
        (∃ c ∈ companies, c.domain = k) ∨ k = "unknown" := by
  intro companies results
  induction results with
  | nil =>
    intro base hbase k hk
    exact hbase k hk
  | cons qr rs ih =>
    intro base hbase k hk
    have hstep : run_serper_searches_merge companies base (qr :: rs)
        = run_serper_searches_merge companies
            (setdefault_extend base (route_query companies qr.1) qr.2) rs := rfl
    rw [hstep] at hk
    refine ih _ ?_ k hk
    intro k' hk'
    rcases (mem_keys_setdefault_extend base (route_query companies qr.1) qr.2 k').mp hk'
        with h | rfl
    · exact hbase k' h
    · rcases route_query_cases companies qr.1 with ⟨c, hc, hd⟩ | hu
      · exact Or.inl ⟨c, hc, hd.symm⟩
      · exact Or.inr hu

/-- Closed witness for C6 (amended): one query that matches the single
company lands under its domain. -/
theorem C6_evidence_keys_amended_witness :
    (∃ c ∈ [({ name := "Acme", domain := "acme.com" } : CompanyMeta)],
        c.domain = "acme.com")
      ∨ "acme.com" = "unknown" :=
  C6_evidence_keys_amended [{ name := "Acme", domain := "acme.com" }]
    [("Acme pricing", ["s1"])] [] (by simp [evidence_keys]) "acme.com" (by decide)

/-- C6 counterexample: a query matching no extracted company is stored
under the `"unknown"` bucket, which is not any admitted entity's domain,
so the search stage does store evidence under a non-entity key. -/
theorem C6_counterexample_unknown_bucket :
    evidence_keys (run_serper_searches_merge
        [{ name := "Acme", domain := "acme.com" }] [] [("foo", ["snippet"])])
      = ["unknown"]
    ∧ ¬ (∀ k ∈ evidence_keys (run_serper_searches_merge
          [{ name := "Acme", domain := "acme.com" }] [] [("foo", ["snippet"])]),
        ∃ c ∈ [({ name := "Acme", domain := "acme.com" } : CompanyMeta)],
          c.domain = k) := by
  decide

lemma applyFailures_closed_below (cfg : CircuitBreakerConfig) (times : Nat → ℚ) :
    ∀ (m : Nat) (cb : CircuitBreaker), cb.state = .CLOSED →
      cb.failure_count + m < cfg.failure_threshold →
      ((applyFailures cfg cb times m).state = .CLOSED
        ∧ (applyFailures cfg cb times m).failure_count = cb.failure_count + m) := by
  intro m
  induction m with
  | zero =>
    intro cb h _
    exact ⟨h, rfl⟩
  | succ n ih =>
    intro cb h hlt
    have hn := ih cb h (by omega)
    have hstep : applyFailures cfg cb times (n + 1)
        = (circuit_call cfg (applyFailures cfg cb times n) (times n) .failure).breaker := rfl
    have hth : ¬ cfg.failure_threshold ≤ (applyFailures cfg cb times n).failure_count + 1 := by
      rw [hn.2]
      omega
    rw [hstep]
    constructor
    · simp [circuit_call, on_failure, hn.1, hth]
    · have hcount := hn.2
      simp [circuit_call, on_failure, hn.1, hth]
      omega

lemma applyFailures_opens (cfg : CircuitBreakerConfig) (times : Nat → ℚ)
    (cb : CircuitBreaker) (hst : cb.state = .CLOSED) (hfc : cb.failure_count = 0)
    (hth : 1 ≤ cfg.failure_threshold) :
    (applyFailures cfg cb times cfg.failure_threshold).state = .OPEN := by
  obtain ⟨m, hm⟩ : ∃ m, cfg.failure_threshold = m + 1 := ⟨cfg.failure_threshold - 1, by omega⟩
  rw [hm]
  have hprev := applyFailures_closed_below cfg times m cb hst (by omega)
  have hstep : applyFailures cfg cb times (m + 1)
      = (circuit_call cfg (applyFailures cfg cb times m) (times m) .failure).breaker := rfl
  have hge : cfg.failure_threshold ≤ (applyFailures cfg cb times m).failure_count + 1 := by
    rw [hprev.2, hfc]
    omega
  rw [hstep]
  simp [circuit_call, on_failure, hprev.1, hge]

/-- C7 (amended): the circuit breaker's call operation realises
`closed →(failureThreshold consecutive failures)→ open`; while open and
within `recoveryTimeout` of the last failure a call fails fast without
invoking the function and leaves the breaker untouched; once
`recoveryTimeout` has elapsed the next call is attempted in half-open
(resetting the failure count), where a failure reopens the circuit
immediately but a success closes it only once `successThreshold`
(default 2) consecutive half-open successes have accumulated — a single
success leaves the breaker half-open whenever
`successThreshold > successCount + 1`. -/
theorem C7_circuit_breaker_amended :
    (∀ (cfg : CircuitBreakerConfig) (times : Nat → ℚ) (cb : CircuitBreaker),
        cb.state = .CLOSED → cb.failure_count = 0 → 1 ≤ cfg.failure_threshold →
        (applyFailures cfg cb times cfg.failure_threshold).state = .OPEN)
    ∧ (∀ (cfg : CircuitBreakerConfig) (cb : CircuitBreaker) (now : ℚ)
          (outcome : CallOutcome), cb.state = .OPEN →
        (∀ t, cb.last_failure_time = some t → now - t < cfg.recovery_timeout) →
        circuit_call cfg cb now outcome
          = { breaker := cb, result := .failedFast, invoked := false })
    ∧ (∀ (cfg : CircuitBreakerConfig) (cb : CircuitBreaker) (now t : ℚ),
        cb.state = .OPEN → cb.last_failure_time = some t →
        cfg.recovery_timeout ≤ now - t →
        (((circuit_call cfg cb now .failure).invoked = true
            ∧ (circuit_call cfg cb now .failure).breaker.state = .OPEN)
          ∧ ((circuit_call cfg cb now .success).invoked = true
            ∧ (circuit_call cfg cb now .success).breaker.state
                = (if cfg.success_threshold ≤ cb.success_count + 1
                    then .CLOSED else .HALF_OPEN))))
    ∧ (∀ (cfg : CircuitBreakerConfig) (cb : CircuitBreaker) (now : ℚ),
        cb.state = .HALF_OPEN →
        (circuit_call cfg cb now .failure).breaker.state = .OPEN)
    ∧ (∀ (cfg : CircuitBreakerConfig) (cb : CircuitBreaker) (now : ℚ),
        cb.state = .HALF_OPEN →
        (circuit_call cfg cb now .success).breaker.state
          = (if cfg.success_threshold ≤ cb.success_count + 1
              then .CLOSED else .HALF_OPEN)) := by
  refine ⟨applyFailures_opens, ?_, ?_, ?_, ?_⟩
  · intro cfg cb now outcome hopen hnear
    have hreset : can_attempt_reset cfg cb now = false := by
      unfold can_attempt_reset
      cases hlf : cb.last_failure_time with
      | none => rfl
      | some t => exact decide_eq_false (not_le.mpr (hnear t hlf))
    simp [circuit_call, hopen, hreset]
  · intro cfg cb now t hopen hlf hfar
    have hreset : can_attempt_reset cfg cb now = true := by
      unfold can_attempt_reset
      rw [hlf]
      exact decide_eq_true hfar
    refine ⟨⟨?_, ?_⟩, ?_, ?_⟩
    · simp [circuit_call, hopen, hreset]
    · simp [circuit_call, hopen, hreset, on_failure]
    · simp [circuit_call, hopen, hreset]
    · by_cases hs : cfg.success_threshold ≤ cb.success_count + 1
      · simp [circuit_call, hopen, hreset, on_success, hs]
      · simp [circuit_call, hopen, hreset, on_success, hs]
  · intro cfg cb now hho
    simp [circuit_call, on_failure, hho]
  · intro cfg cb now hho
    by_cases hs : cfg.success_threshold ≤ cb.success_count + 1
    · simp [circuit_call, on_success, hho, hs]
    · simp [circuit_call, on_success, hho, hs]

/-- Closed witness for C7 (amended): a failure in half-open reopens the
circuit. -/
theorem C7_circuit_breaker_amended_witness :
    (circuit_call {} ({ state := .HALF_OPEN } : CircuitBreaker) 0 .failure).breaker.state
      = .OPEN :=
  C7_circuit_breaker_amended.2.2.2.1 {} ({ state := .HALF_OPEN } : CircuitBreaker) 0 rfl

/-- C7 counterexample: with the default configuration
(`failure_threshold = 5`, `success_threshold = 2`,
`recovery_timeout = 60`), after five consecutive failures at time 0 and
a successful probe call at time 100 the breaker is HALF_OPEN, not
CLOSED — one half-open success does not close the circuit. -/
theorem C7_counterexample_single_success_not_closed :
    (circuit_call {} (applyFailures {} {} (fun _ => 0) 5) 100 .success).breaker.state
        = .HALF_OPEN
    ∧ (circuit_call {} (applyFailures {} {} (fun _ => 0) 5) 100 .success).breaker.state
        ≠ .CLOSED := by
  have h1 : applyFailures {} {} (fun _ => 0) 5
      = { state := .OPEN, failure_count := 5, success_count := 0,
          last_failure_time := some 0 } := by
    rfl
  rw [h1]
  constructor
  · norm_num [circuit_call, can_attempt_reset, on_success]
  · norm_num [circuit_call, can_attempt_reset, on_success]
    decide

/-- C8: if the quality stage's aggregation/summarization call raises,
the stage returns its input state unchanged — quality metrics are not
written and every other field is identical — so the run continues and
the loop falls through to the forced-iteration-limit termination path. -/
theorem C8_quality_stage_error_returns_state :
    ∀ (state : GTMState) (e : String),
      quality_evaluator_agent state (.error e) = state := by
  intro state e
  unfold quality_evaluator_agent
  split_ifs with h
  · rfl
  · rfl

lemma find?_map_replace {V : Type} (key : String) (x : V × ℚ) :
    ∀ (cache : List (String × V × ℚ)),
      cache.any (fun e => e.1 == key) = true →
      (cache.map (fun e => if e.1 == key then (e.1, x) else e)).find?
          (fun e => e.1 == key)
        = some (key, x) := by
  intro cache
  induction cache with
  | nil =>
    intro h
    simp at h
  | cons e m ih =>
    intro hany
    by_cases he : e.1 = key
    · simp [List.map_cons, List.find?_cons, he]
    · have hany' : m.any (fun e => e.1 == key) = true := by
        simpa [List.any_cons, he] using hany
      have hupd : (if e.1 == key then (e.1, x) else e) = e := by simp [he]
      rw [List.map_cons, hupd, List.find?_cons_of_neg _ (by simp [he])]
      exact ih hany'

lemma find?_cache_set {V : Type} (cache : List (String × V × ℚ)) (key : String)
    (value : V) (ttl : Option Int) (now : ℚ) :
    (cache_set cache key value ttl now).find? (fun e => e.1 == key)
      = some (key, value, now + (cache_ttl ttl : ℚ)) := by
  unfold cache_set
  by_cases hany : cache.any (fun e => e.1 == key) = true
  · rw [if_pos hany]
    exact find?_map_replace key (value, now + (cache_ttl ttl : ℚ)) cache hany
  · rw [if_neg hany]
    have hnone : cache.find? (fun e => e.1 == key) = none := by
      rw [List.find?_eq_none]
      intro e he hbe
      exact hany (List.any_eq_true.mpr ⟨e, he, hbe⟩)
    rw [find?_append_right hnone, List.find?_cons_of_pos _ (by simp)]

/-- C9: cache round-trip — for every key, value and positive ttl, a get
at the set's own time returns the value (the expiry `now + ttl` lies
strictly in the future), and a get performed more than ttl seconds
after the set returns none. -/
theorem C9_cache_roundtrip :
    ∀ (V : Type) (cache : List (String × V × ℚ)) (key : String) (value : V)
      (ttl : Int) (now after : ℚ),
      0 < ttl →
      ((cache_get (cache_set cache key value (some ttl) now) key now).1 = some value
        ∧ ((ttl : ℚ) < after - now →
            (cache_get (cache_set cache key value (some ttl) now) key after).1 = none)) := by
  intro V cache key value ttl now after hpos
  have httl : cache_ttl (some ttl) = ttl := by
    have hne : ttl ≠ 0 := by omega
    simp [cache_ttl, hne]
  have hfind := find?_cache_set cache key value (some ttl) now
  rw [httl] at hfind
  constructor
  · have hlt : now < now + (ttl : ℚ) := by
      have h0 : (0 : ℚ) < (ttl : ℚ) := by exact_mod_cast hpos
      linarith
    simp [cache_get, hfind, hlt]
  · intro hafter
    have hge : ¬ (after < now + (ttl : ℚ)) := by linarith
    simp [cache_get, hfind, hge]

/-- Closed witness for C9 at a concrete key, value, ttl and clock. -/
theorem C9_cache_roundtrip_witness :
    (cache_get (cache_set ([] : List (String × Nat × ℚ)) "k" 7 (some 60) 0) "k" 0).1
        = some 7
    ∧ (cache_get (cache_set ([] : List (String × Nat × ℚ)) "k" 7 (some 60) 0) "k" 100).1
        = none :=
  ⟨(C9_cache_roundtrip Nat [] "k" 7 60 0 100 (by decide)).1,
   (C9_cache_roundtrip Nat [] "k" 7 60 0 100 (by decide)).2 (by norm_num)⟩
